import Mathlib

/-!
Verification of the natural-language specification of
`src/frontend/src/classes/interactable/ShogiAreaController.tsx` against a
shallow embedding of that file.

Conventions of the embedding:
* TypeScript `string | undefined` values are `Option String`; the JavaScript
  value `undefined` is `none`.
* The board cell type `ShogiCell = ShogiColor | undefined` therefore becomes
  `Option String` (the runtime values stored in cells are the strings
  `" "`, one-character piece tokens, and `'+'`-prefixed two-character tokens).
* A JavaScript array-index assignment `a[i] = v` can extend the array; the
  skipped slots read back as `undefined`.  `jsSet` models this, filling the
  gap with `none`.
* Methods that `throw` are embedded as `Except String` values; a returned
  `Except.ok` command is exactly the payload handed to the transport
  (`sendInteractableCommand`), so "no network call" is `Except.error`.
* Event emission is modelled by returning the list of emitted events in
  order; the event name is carried verbatim as the string the source passes
  to `emit`.
* The base class `GameAreaController` and the wire types from
  `CoveyTownSocket` are not part of `src/`; the definitions below that stand
  in for them are marked "Modelled from the spec".
-/

/-- TS `ShogiCell = ShogiColor | undefined`; runtime cells hold strings. -/
abbrev ShogiCell := Option String

/-- The decoded board: a list of ranks, each a list of cells. -/
abbrev Board := List (List ShogiCell)

/-- Modelled from the spec: the phase tag of `GameStatus` in
`CoveyTownSocket` (not under `src/`): WAITING_FOR_PLAYERS / WAITING_TO_START
/ IN_PROGRESS / OVER. -/
inductive GameStatus where
  | WAITING_FOR_PLAYERS
  | WAITING_TO_START
  | IN_PROGRESS
  | OVER
  deriving DecidableEq, Repr

/-- Modelled from the spec: a `PlayerController` reduced to the only field
the core reads, its participant identifier. -/
structure Player where
  id : String
  deriving DecidableEq, Repr

/-- Modelled from the spec: the `ShogiGameState` snapshot fields the
controller reads (serialized board, move counter, the two role-holder ids,
winner, phase). -/
structure ShogiGameState where
  sfen : String
  numMoves : Nat
  white : Option String
  black : Option String
  winner : Option String
  status : GameStatus
  deriving DecidableEq, Repr

/-- Modelled from the spec: the game-instance envelope (instance id, player
ids, state). -/
structure GameInstance where
  id : String
  players : List String
  state : ShogiGameState
  deriving DecidableEq, Repr

/-- Modelled from the spec: the `GameArea` snapshot: an optional game plus
the occupant list the base collaborator refreshes from. -/
structure GameAreaModel where
  game : Option GameInstance
  occupants : List Player
  deriving DecidableEq, Repr

/-- The controller's local state: the last snapshot (`this._model`), the
cached decoded board (`this._board`), the instance id, the occupant list
maintained by the base class, and the local participant's id
(`this._townController.ourPlayer.id`). -/
structure ControllerState where
  model : GameAreaModel
  board : Board
  instanceID : Option String
  occupants : List Player
  ourId : String
  deriving DecidableEq, Repr

/-- Numeric value of an ASCII digit character (`parseInt(char, 10)` on a
single digit character). -/
def digitVal (c : Char) : Nat := c.toNat - 48

/-- JavaScript array assignment `l[i] = v`: in-bounds it overwrites; past
the end it extends the array, with the skipped slots reading back as
`undefined` (`none`). -/
def jsSet (l : List ShogiCell) (i : Nat) (v : ShogiCell) : List ShogiCell :=
  if i < l.length then l.set i v
  else l ++ List.replicate (i - l.length) none ++ [v]

/-- The inner loop of `createBoardFromSfen` over one rank's characters
(source lines 33-48): a digit advances the file cursor by its value; `'+'`
consumes the following character too and stores the two-character token
(at the end of a rank, JS `char + rank[j+1]` concatenates `undefined`,
yielding the string `"+undefined"`); any other character is stored as a
one-character token. -/
def decodeRankAux : List Char → Nat → List ShogiCell → List ShogiCell
  | [], _, row => row
  | c :: rest, file, row =>
    if c.isDigit then
      decodeRankAux rest (file + digitVal c) row
    else if c = '+' then
      match rest with
      | c2 :: rest2 => decodeRankAux rest2 (file + 1) (jsSet row file (some (String.mk [c, c2])))
      | [] => decodeRankAux [] (file + 1) (jsSet row file (some ("+undefined")))
    else
      decodeRankAux rest (file + 1) (jsSet row file (some (String.mk [c])))

/-- JavaScript `String.prototype.split` with a one-character separator:
`"".split(s)` is `[""]`, separators at the ends produce empty fields. -/
def splitChar (sep : Char) : List Char → List (List Char)
  | [] => [[]]
  | c :: rest =>
    let r := splitChar sep rest
    if c = sep then [] :: r
    else (c :: r.headD []) :: r.tail

/-- `sfen.split(' ')[0]`: the first space-delimited field. -/
def firstField (cs : List Char) : List Char := (splitChar ' ' cs).headD []

/-- One freshly initialised rank: `new Array(9).fill(' ')`. -/
def initRow : List ShogiCell := List.replicate 9 (some (" "))

/-- The freshly initialised 9x9 board of `createBoardFromSfen`. -/
def initBoard : Board := List.replicate 9 initRow

/-- The outer loop of `createBoardFromSfen` (source lines 31-49): rank `i`
is decoded into row `i` of the board.  Fidelity note: with more than 9
ranks, a rank at index `>= 9` that contains a piece character would make the
JS original throw (`board[i]` is `undefined`); here such writes are simply
dropped (`List.set` past the end is a no-op).  Every theorem below stays
within inputs on which the two agree. -/
def decodeLoop : List (List Char) → Nat → Board → Board
  | [], _, board => board
  | r :: rs, i, board =>
    decodeLoop rs (i + 1) (board.set i (decodeRankAux r 0 ((board.get? i).getD initRow)))

/-- `createBoardFromSfen` (source lines 27-52). -/
def createBoardFromSfen (sfen : String) : Board :=
  decodeLoop (splitChar '/' (firstField sfen.data)) 0 initBoard

/-- The standard opening layout the cache is initialised from (source
line 59). -/
def initialSfen : String := "lnsgkgsnl/1r5b1/ppppppppp/9/9/9/PPPPPPPPP/1B5R1/LNSGKGSNL"

/-- The inner loop of `_boardToSfen` over one rank (source lines 190-206):
consecutive `' '` cells are counted and flushed as a decimal run length
(JS `rank += empty` stringifies the number, i.e. `Nat.repr`); other cells
are appended verbatim. -/
def encodeRowAux : List String → Nat → List Char
  | [], empty => if empty > 0 then (Nat.repr empty).data else []
  | c :: rest, empty =>
    if c = " " then encodeRowAux rest (empty + 1)
    else (if empty > 0 then (Nat.repr empty).data else []) ++ c.data ++ encodeRowAux rest 0

/-- Rank joining of `_boardToSfen` (source lines 207-210): `'/'` after every
rank except the last. -/
def intercalateChar (sep : Char) : List (List Char) → List Char
  | [] => []
  | [r] => r
  | r :: rs => r ++ sep :: intercalateChar sep rs

/-- `_boardToSfen` (source lines 187-213). -/
def _boardToSfen (board : List (List String)) : String :=
  String.mk (intercalateChar '/' (board.map (fun row => encodeRowAux row 0)))

/-- The `white` getter (source lines 76-82): look the `white` id up in the
occupant list; a missing or falsy (empty-string) id resolves to nobody. -/
def white (c : ControllerState) : Option Player :=
  match c.model.game with
  | some g =>
    match g.state.white with
    | some w => if w ≠ "" then c.occupants.find? (fun p => p.id == w) else none
    | none => none
  | none => none

/-- The `black` getter (source lines 87-93). -/
def black (c : ControllerState) : Option Player :=
  match c.model.game with
  | some g =>
    match g.state.black with
    | some b => if b ≠ "" then c.occupants.find? (fun p => p.id == b) else none
    | none => none
  | none => none

/-- The `moveCount` getter (source lines 109-111): `numMoves || 0`. -/
def moveCount (c : ControllerState) : Nat :=
  (c.model.game.map (fun g => g.state.numMoves)).getD 0

/-- The `status` getter (source lines 144-150): `WAITING_FOR_PLAYERS` when
no game object exists. -/
def status (c : ControllerState) : GameStatus :=
  match c.model.game with
  | some g => g.state.status
  | none => GameStatus.WAITING_FOR_PLAYERS

/-- Shorthand for `this._model.game?.state.status` (the raw optional field,
as tested by `whoseTurn`, `startGame` and `makeMove`). -/
def gameStatus (c : ControllerState) : Option GameStatus :=
  c.model.game.map (fun g => g.state.status)

/-- The `whoseTurn` getter (source lines 158-167). -/
def whoseTurn (c : ControllerState) : Option Player :=
  if white c = none ∨ black c = none ∨ gameStatus c ≠ some GameStatus.IN_PROGRESS then none
  else if moveCount c % 2 = 0 then black c
  else white c

/-- The `isOurTurn` getter (source lines 116-118): `whoseTurn?.id === ourId`
(`undefined === id` is `false`). -/
def isOurTurn (c : ControllerState) : Bool :=
  (whoseTurn c).map Player.id == some c.ourId

/-- Modelled from the spec: the error constant exported by the base
`GameAreaController` module (not under `src/`); only its identity matters. -/
def PLAYER_NOT_IN_GAME_ERROR : String := "Player is not in this game"

/-- Modelled from the spec: the error constant exported by the base
`GameAreaController` module (not under `src/`). -/
def NO_GAME_IN_PROGRESS_ERROR : String := "No game in progress"

/-- Modelled from the spec: the error constant exported by the base
`GameAreaController` module (not under `src/`). -/
def NO_GAME_STARTABLE : String := "No game startable"

/-- The `gamePiece` getter (source lines 131-138). -/
def gamePiece (c : ControllerState) : Except String String :=
  if (white c).map Player.id == some c.ourId then Except.ok ("white")
  else if (black c).map Player.id == some c.ourId then Except.ok ("black")
  else Except.error PLAYER_NOT_IN_GAME_ERROR

/-- Modelled from the spec: a coordinate pair of the wire type
`BoardPosition`. -/
structure BoardPosition where
  row : Nat
  col : Nat
  deriving DecidableEq, Repr

/-- Modelled from the spec: the wire type `ShogiMove` pairing origin and
destination (its TS fields are named `from` and `to`, keywords in Lean). -/
structure ShogiMove where
  fromPos : BoardPosition
  toPos : BoardPosition
  deriving DecidableEq, Repr

/-- The two outbound commands the controller can hand to the transport. -/
inductive OutCommand where
  | StartGame (gameID : String)
  | GameMove (gameID : String) (move : ShogiMove)
  deriving DecidableEq, Repr

/-- `startGame` (source lines 249-258): guard `!instanceID || status !==
'WAITING_TO_START'` (an empty-string id is falsy in JS), then send
`StartGame` tagged with the instance id. -/
def startGame (c : ControllerState) : Except String OutCommand :=
  match c.instanceID with
  | some instanceID =>
    if instanceID ≠ "" ∧ gameStatus c = some GameStatus.WAITING_TO_START then
      Except.ok (OutCommand.StartGame instanceID)
    else Except.error NO_GAME_STARTABLE
  | none => Except.error NO_GAME_STARTABLE

/-- `makeMove` (source lines 270-295): guard `!instanceID || status !==
'IN_PROGRESS'`, then forward the four coordinates unchanged as a
`GameMove`. -/
def makeMove (c : ControllerState) (fRow fCol tRow tCol : Nat) : Except String OutCommand :=
  match c.instanceID with
  | some instanceID =>
    if instanceID ≠ "" ∧ gameStatus c = some GameStatus.IN_PROGRESS then
      Except.ok (OutCommand.GameMove instanceID ⟨⟨fRow, fCol⟩, ⟨tRow, tCol⟩⟩)
    else Except.error NO_GAME_IN_PROGRESS_ERROR
  | none => Except.error NO_GAME_IN_PROGRESS_ERROR

/-- An event emitted by `_updateFrom`, tagged with the event-name string the
source passes to `emit` verbatim. -/
inductive Emitted where
  | board (name : String) (b : Board)
  | turn (name : String) (v : Bool)
  deriving DecidableEq, Repr

/-- `true` exactly on board-payload events (any name). -/
def isBoardEmit : Emitted → Bool
  | Emitted.board _ _ => true
  | Emitted.turn _ _ => false

/-- Modelled from the spec: `super._updateFrom` refreshes the generic
fields — the stored model, the occupant list, and the instance id — and
touches neither the cached board nor this class's events. -/
def baseUpdate (c : ControllerState) (m : GameAreaModel) : ControllerState :=
  { c with
      model := m
      occupants := m.occupants
      instanceID := match m.game with | some g => some g.id | none => c.instanceID }

/-- `_updateFrom` (source lines 227-240): capture `isOurTurn`, delegate to
the base class, then — when the snapshot carries a game — decode its board
and, if it differs from the cache, replace the cache and emit; finally emit
a turn event when the recomputed `isOurTurn` differs.  The board event name
is the source's literal `'boxardChanged'`. -/
def _updateFrom (c : ControllerState) (newModel : GameAreaModel) : ControllerState × List Emitted :=
  let wasOurTurn := isOurTurn c
  let c1 := baseUpdate c newModel
  let step :=
    match newModel.game with
    | some newGame =>
      let newBoard := createBoardFromSfen newGame.state.sfen
      if newBoard ≠ c1.board then
        ({ c1 with board := newBoard }, [Emitted.board ("boxardChanged") newBoard])
      else (c1, ([] : List Emitted))
    | none => (c1, ([] : List Emitted))
  let nowOurTurn := isOurTurn step.1
  if wasOurTurn ≠ nowOurTurn then (step.1, step.2 ++ [Emitted.turn ("turnChanged") nowOurTurn])
  else (step.1, step.2)

/-- Claim-side well-formedness of one cell value for the round-trip claim:
empty, a one-character token that is not a digit, marker, rank separator or
space, or a promotion marker plus a base symbol that is not a rank
separator or space. -/
def wfCell (c : String) : Bool :=
  if c = " " then true
  else
    match c.data with
    | [ch] => !ch.isDigit && ch != '+' && ch != '/' && ch != ' '
    | [ch1, ch2] => ch1 == '+' && ch2 != '/' && ch2 != ' '
    | _ => false

/-- Claim-side well-formedness of a 9-cell rank. -/
def wfRow (row : List String) : Bool :=
  row.length == 9 && row.all wfCell

/-- Claim-side well-formedness of a 9x9 board of cell strings. -/
def wfStrBoard (b : List (List String)) : Bool :=
  b.length == 9 && b.all wfRow

/-- Token of the claim-side description of the decoder: a run of empty
cells, or a piece token occupying one cell. -/
inductive SfenToken where
  | emptyRun (n : Nat)
  | piece (s : String)
  deriving DecidableEq, Repr

/-- Following the spec's description of the decoder: scan a rank left to
right into tokens — a digit is an empty run of its value, a promotion
marker together with the following character is one two-character token,
any other character a one-character token.  (A dangling marker at the end
of a rank is malformed input; the arbitrary result here is excluded by
`wfRankChars`.) -/
def specScanRank : List Char → List SfenToken
  | [] => []
  | c :: rest =>
    if c.isDigit then SfenToken.emptyRun (digitVal c) :: specScanRank rest
    else if c = '+' then
      match rest with
      | c2 :: rest2 => SfenToken.piece (String.mk [c, c2]) :: specScanRank rest2
      | [] => [SfenToken.piece (String.mk [c])]
    else SfenToken.piece (String.mk [c]) :: specScanRank rest

/-- Following the spec's description: an empty run of length `n` produces
`n` consecutive empty cells. -/
def setEmptyRun : List ShogiCell → Nat → Nat → List ShogiCell
  | row, _, 0 => row
  | row, file, n + 1 => setEmptyRun (row.set file (some (" "))) (file + 1) n

/-- Following the spec's description: place the scanned tokens left to
right, the file cursor advancing by the run length for an empty run and by
one for a piece token, which occupies a single cell. -/
def specPlaceTokens : List SfenToken → Nat → List ShogiCell → List ShogiCell
  | [], _, row => row
  | SfenToken.emptyRun n :: ts, file, row =>
    specPlaceTokens ts (file + n) (setEmptyRun row file n)
  | SfenToken.piece s :: ts, file, row =>
    specPlaceTokens ts (file + 1) (row.set file (some s))

/-- How far a token advances the file cursor. -/
def tokenAdvance : SfenToken → Nat
  | SfenToken.emptyRun n => n
  | SfenToken.piece _ => 1

/-- Total file advance of a rank's scan. -/
def rankAdvance (r : List Char) : Nat :=
  ((specScanRank r).map tokenAdvance).sum

/-- A rank's character list is free of dangling promotion markers: every
`'+'` is immediately followed by another character of the same rank. -/
def wfRankChars : List Char → Bool
  | [] => true
  | c :: rest =>
    if c = '+' then
      match rest with
      | _ :: rest2 => wfRankChars rest2
      | [] => false
    else wfRankChars rest

/-- Well-formedness of a whole serialized board string: at most 9 ranks in
the first space-delimited field, no dangling promotion marker, and a file
advance of at most 9 per rank. -/
def wfSfen (s : String) : Bool :=
  let ranks := splitChar '/' (firstField s.data)
  decide (ranks.length ≤ 9) &&
    ranks.all (fun r => wfRankChars r && decide (rankAdvance r ≤ 9))

/-- Does a snapshot's game (when present) carry a well-formed board
string? -/
def modelSfenOk (m : GameAreaModel) : Bool :=
  match m.game with
  | some g => wfSfen g.state.sfen
  | none => true

/-- The cell shapes the board-invariant claim allows: the single-space
string, a one-character token, or a promotion marker plus one character;
`undefined` (`none`) is not allowed. -/
def allowedCell : ShogiCell → Bool
  | none => false
  | some s =>
    if s = " " then true
    else
      match s.data with
      | [_] => true
      | [ch1, _] => ch1 == '+'
      | _ => false

/-- Every cell of a rank has an allowed shape and the rank is 9 wide. -/
def rowOk (row : List ShogiCell) : Bool :=
  row.length == 9 && row.all allowedCell

/-- Every cell of the board has an allowed shape, in 9 ranks of 9. -/
def boardOk (b : Board) : Bool :=
  b.length == 9 && b.all rowOk

/-- The board stripped down to cell shapes only (the claim's wording):
every cell of every rank is allowed. -/
def boardAllowed (b : Board) : Bool :=
  b.all (fun row => row.all allowedCell)

/-- The all-empty board string an in-progress example snapshot carries. -/
def emptySfen : String := "9/9/9/9/9/9/9/9/9"

/-- A snapshot envelope with no game started. -/
def modelNoGame : GameAreaModel := { game := none, occupants := [] }

/-- The controller as constructed: initial cache, no snapshot yet, local
participant `p1`. -/
def cInit : ControllerState :=
  { model := modelNoGame
    board := createBoardFromSfen initialSfen
    instanceID := none
    occupants := []
    ourId := "p1" }

/-- The same fresh controller seen by local participant `p2`. -/
def cInit2 : ControllerState :=
  { cInit with ourId := "p2" }

/-- An in-progress game state on the empty board, `p1` white, `p2` black,
no moves yet. -/
def stateInProgress : ShogiGameState :=
  { sfen := emptySfen
    numMoves := 0
    white := some ("p1")
    black := some ("p2")
    winner := none
    status := GameStatus.IN_PROGRESS }

/-- A snapshot carrying `stateInProgress` with both players present. -/
def modelInProgress : GameAreaModel :=
  { game := some { id := "g1", players := [("p1"), ("p2")], state := stateInProgress }
    occupants := [⟨("p1")⟩, ⟨("p2")⟩] }

/-- The controller after that snapshot has been applied, seen by `p1`. -/
def cSync : ControllerState :=
  { model := modelInProgress
    board := createBoardFromSfen emptySfen
    instanceID := some ("g1")
    occupants := [⟨("p1")⟩, ⟨("p2")⟩]
    ourId := "p1" }

/-- A degenerate snapshot in which both role-holder fields name the local
participant `us`. -/
def stateBothRoles : ShogiGameState :=
  { sfen := emptySfen
    numMoves := 0
    white := some ("us")
    black := some ("us")
    winner := none
    status := GameStatus.IN_PROGRESS }

/-- The controller state produced by that degenerate snapshot. -/
def cBothRoles : ControllerState :=
  { model := { game := some { id := "g2", players := [("us")], state := stateBothRoles }
               occupants := [⟨("us")⟩] }
    board := initBoard
    instanceID := some ("g2")
    occupants := [⟨("us")⟩]
    ourId := "us" }

/-- A well-formed 9x9 example board with empties, plain and promoted
tokens. -/
def exBoard : List (List String) :=
  [["l", "n", "s", "g", "k", "g", "s", "n", "l"],
   [" ", "r", " ", " ", " ", " ", " ", "b", " "],
   ["p", "p", "p", "p", " ", "p", "p", "p", "p"],
   [" ", " ", " ", " ", "p", " ", " ", " ", " "],
   [" ", " ", "+P", " ", " ", " ", " ", " ", " "],
   [" ", " ", " ", " ", " ", " ", " ", " ", " "],
   ["P", "P", "P", "P", "P", "P", "P", "P", "P"],
   [" ", "B", " ", " ", " ", " ", " ", "+r", " "],
   ["L", "N", "S", "G", "K", "G", "S", "N", "L"]]

/-- An example rank for the scanner claim: two empties, a pawn, a promoted
pawn, three empties, a rook. -/
def exRank : List Char := "2p+p3r".data

/-- A malformed game state whose board string is a lone promotion marker. -/
def statePlus : ShogiGameState :=
  { sfen := "+"
    numMoves := 0
    white := none
    black := none
    winner := none
    status := GameStatus.IN_PROGRESS }

/-- A snapshot carrying that malformed board string. -/
def modelPlus : GameAreaModel :=
  { game := some { id := "g3", players := [], state := statePlus }
    occupants := [] }

deriving instance DecidableEq for Except

theorem set_append_len {α : Type} (xs ys : List α) (n : Nat) (v : α) :
    (xs ++ ys).set (xs.length + n) v = xs ++ ys.set n v := by
  induction xs with
  | nil => simp
  | cons x xs ih => simp [Nat.succ_add, ih]

theorem set_replicate_lt {α : Type} (a v : α) :
    ∀ (n k : Nat), n < k →
      (List.replicate k a).set n v
        = List.replicate n a ++ v :: List.replicate (k - n - 1) a := by
  intro n
  induction n with
  | zero =>
    intro k hk
    cases k with
    | zero => omega
    | succ k => simp [List.replicate_succ]
  | succ n ih =>
    intro k hk
    cases k with
    | zero => omega
    | succ k =>
      simp only [List.replicate_succ, List.set]
      rw [ih k (by omega)]
      simp [Nat.succ_sub_one]

theorem set_eq_of_get? {α : Type} :
    ∀ (l : List α) (i : Nat) (v : α), l.get? i = some v → l.set i v = l := by
  intro l
  induction l with
  | nil => intro i v h; simp at h
  | cons x xs ih =>
    intro i v h
    cases i with
    | zero =>
      simp only [List.get?] at h
      cases h
      rfl
    | succ i =>
      simp only [List.get?] at h
      simp only [List.set]
      rw [ih i v h]

theorem splitChar_of_not_mem (sep : Char) :
    ∀ (cs : List Char), sep ∉ cs → splitChar sep cs = [cs] := by
  intro cs
  induction cs with
  | nil => intro _; rfl
  | cons c rest ih =>
    intro h
    have hc : ¬c = sep := fun hcs => h (hcs ▸ List.mem_cons_self c rest)
    have hrest : sep ∉ rest := fun hm => h (List.mem_cons_of_mem c hm)
    simp [splitChar, hc, ih hrest]

theorem splitChar_append (sep : Char) (t : List Char) :
    ∀ (r : List Char), sep ∉ r →
      splitChar sep (r ++ sep :: t) = r :: splitChar sep t := by
  intro r
  induction r with
  | nil => intro _; simp [splitChar]
  | cons c r' ih =>
    intro h
    have hc : ¬c = sep := fun hcs => h (hcs ▸ List.mem_cons_self c r')
    have hr : sep ∉ r' := fun hm => h (List.mem_cons_of_mem c hm)
    simp [splitChar, hc, ih hr]

theorem splitChar_intercalate (sep : Char) :
    ∀ (rss : List (List Char)), rss ≠ [] → (∀ r ∈ rss, sep ∉ r) →
      splitChar sep (intercalateChar sep rss) = rss := by
  intro rss
  induction rss with
  | nil => intro h; exact absurd rfl h
  | cons r rs ih =>
    intro _ hmem
    cases rs with
    | nil =>
      simpa [intercalateChar] using splitChar_of_not_mem sep r (hmem r (by simp))
    | cons r2 rs' =>
      have h1 : intercalateChar sep (r :: r2 :: rs') = r ++ sep :: intercalateChar sep (r2 :: rs') := rfl
      rw [h1, splitChar_append sep _ r (hmem r (by simp))]
      rw [ih (by simp) (fun x hx => hmem x (List.mem_cons_of_mem r hx))]

theorem firstField_eq_takeWhile :
    ∀ (cs : List Char), firstField cs = cs.takeWhile (fun c => c != ' ') := by
  intro cs
  induction cs with
  | nil => rfl
  | cons c rest ih =>
    by_cases hc : c = ' '
    · subst hc; simp [firstField, splitChar, List.takeWhile]
    · have hbn : (c != ' ') = true := by simpa [bne_iff_ne] using hc
      have hd : ∀ l : List (List Char), l.headD [] = l.head?.getD [] := by
        intro l; cases l <;> rfl
      simp only [firstField, hd] at ih ⊢
      simp [splitChar, hc, List.takeWhile, hbn, ih]

theorem firstField_of_no_space (cs : List Char) (h : ' ' ∉ cs) : firstField cs = cs := by
  rw [firstField_eq_takeWhile]
  induction cs with
  | nil => rfl
  | cons c rest ih =>
    have hc : (c != ' ') = true := by
      simp only [bne_iff_ne, ne_eq]
      exact fun hcs => h (hcs ▸ List.mem_cons_self c rest)
    simp [List.takeWhile, hc, ih (fun hm => h (List.mem_cons_of_mem c hm))]

theorem not_space_mem_firstField (cs : List Char) : ' ' ∉ firstField cs := by
  rw [firstField_eq_takeWhile]
  intro hmem
  have := List.mem_takeWhile_imp hmem
  simp at this

theorem repr_digit (e : Nat) (h1 : 1 ≤ e) (h2 : e ≤ 9) :
    ∃ d : Char, (Nat.repr e).data = [d] ∧ d.isDigit = true ∧ digitVal d = e
      ∧ d ≠ '/' ∧ d ≠ ' ' := by
  interval_cases e
  · exact ⟨'1', rfl, rfl, rfl, by decide, by decide⟩
  · exact ⟨'2', rfl, rfl, rfl, by decide, by decide⟩
  · exact ⟨'3', rfl, rfl, rfl, by decide, by decide⟩
  · exact ⟨'4', rfl, rfl, rfl, by decide, by decide⟩
  · exact ⟨'5', rfl, rfl, rfl, by decide, by decide⟩
  · exact ⟨'6', rfl, rfl, rfl, by decide, by decide⟩
  · exact ⟨'7', rfl, rfl, rfl, by decide, by decide⟩
  · exact ⟨'8', rfl, rfl, rfl, by decide, by decide⟩
  · exact ⟨'9', rfl, rfl, rfl, by decide, by decide⟩

theorem decode_digits_skip (e file : Nat) (tail : List Char) (row : List ShogiCell)
    (h2 : e ≤ 9) :
    decodeRankAux ((if e > 0 then (Nat.repr e).data else []) ++ tail) file row
      = decodeRankAux tail (file + e) row := by
  by_cases he : e > 0
  · obtain ⟨d, hd, hdig, hval, -, -⟩ := repr_digit e he h2
    rw [if_pos he, hd]
    conv_lhs => rw [decodeRankAux.eq_def]
    simp [hdig, hval]
  · have : e = 0 := by omega
    subst this
    simp [decodeRankAux]

theorem string_mk_data (s : String) : String.mk s.data = s := rfl

theorem decode_encode_rank :
    ∀ (row : List String) (e : Nat) (pre : List ShogiCell),
      (∀ c ∈ row, wfCell c = true) →
      pre.length + e + row.length ≤ 9 →
      decodeRankAux (encodeRowAux row e) pre.length
          (pre ++ List.replicate (9 - pre.length) (some (" ")))
        = pre ++ List.replicate e (some (" ")) ++ row.map some ++
            List.replicate (9 - pre.length - e - row.length) (some (" ")) := by
  intro row
  induction row with
  | nil =>
    intro e pre _ hle
    have h9 : e ≤ 9 := by omega
    have hskip := decode_digits_skip e pre.length []
      (pre ++ List.replicate (9 - pre.length) (some (" "))) h9
    simp only [List.append_nil] at hskip
    simp only [encodeRowAux]
    rw [hskip]
    simp only [decodeRankAux]
    rw [show (9 - pre.length) = e + (9 - pre.length - e) from by omega, List.replicate_add]
    simp
  | cons c row' ih =>
    intro e pre hwf hle
    simp only [List.length_cons] at hle
    by_cases hsp : c = " "
    · subst hsp
      have henc : encodeRowAux ((" ") :: row') e = encodeRowAux row' (e + 1) := by
        simp [encodeRowAux]
      rw [henc,
        ih (e + 1) pre (fun d hd => hwf d (List.mem_cons_of_mem _ hd)) (by omega)]
      rw [show 9 - pre.length - (e + 1) - row'.length
            = 9 - pre.length - e - (row'.length + 1) from by omega]
      simp [List.replicate_succ', List.append_assoc]
    · have hwfc := hwf c (List.mem_cons_self c row')
      simp only [wfCell, if_neg hsp] at hwfc
      have henc : encodeRowAux (c :: row') e
          = ((if e > 0 then (Nat.repr e).data else []) ++ (c.data ++ encodeRowAux row' 0)) := by
        simp [encodeRowAux, hsp, List.append_assoc]
      have hlen9 : (pre ++ List.replicate (9 - pre.length) (some (" "))).length = 9 := by
        simp; omega
      have hfe : pre.length + e < 9 := by omega
      rcases hdata : c.data with _ | ⟨ch, ctl⟩
      · rw [hdata] at hwfc; simp at hwfc
      rcases ctl with _ | ⟨ch2, ctl2⟩
      · -- single-character token
        rw [hdata] at hwfc
        simp only [Bool.and_eq_true, Bool.not_eq_true', bne_iff_ne, ne_eq] at hwfc
        obtain ⟨⟨⟨hdig, hplus⟩, _⟩, _⟩ := hwfc
        rw [henc, hdata, decode_digits_skip e pre.length _ _ (by omega)]
        have hstep : decodeRankAux (([ch] ++ encodeRowAux row' 0)) (pre.length + e)
              (pre ++ List.replicate (9 - pre.length) (some (" ")))
            = decodeRankAux (encodeRowAux row' 0) (pre.length + e + 1)
              (jsSet (pre ++ List.replicate (9 - pre.length) (some (" ")))
                (pre.length + e) (some (String.mk [ch]))) := by
          conv_lhs => rw [decodeRankAux.eq_def]
          simp [hdig, hplus]
        rw [hstep]
        have hset : jsSet (pre ++ List.replicate (9 - pre.length) (some (" ")))
              (pre.length + e) (some (String.mk [ch]))
            = (pre ++ List.replicate e (some (" ")) ++ [some (String.mk [ch])]) ++
                List.replicate (9 - pre.length - e - 1) (some (" ")) := by
          rw [jsSet, if_pos (by rw [hlen9]; omega)]
          rw [set_append_len, set_replicate_lt _ _ e (9 - pre.length) (by omega)]
          simp [List.append_assoc]
        rw [hset]
        have hlenp : (pre ++ List.replicate e (some (" ")) ++ [some (String.mk [ch])]).length
            = pre.length + e + 1 := by simp; omega
        have h9p : 9 - (pre.length + e + 1) = 9 - pre.length - e - 1 := by omega
        have := ih 0 (pre ++ List.replicate e (some (" ")) ++ [some (String.mk [ch])])
          (fun d hd => hwf d (List.mem_cons_of_mem _ hd)) (by rw [hlenp]; omega)
        rw [hlenp, h9p] at this
        rw [this]
        have hc : c = String.mk [ch] := by rw [← string_mk_data c, hdata]
        rw [← hc]
        rw [show 9 - pre.length - e - 1 - 0 - row'.length
              = 9 - pre.length - e - (row'.length + 1) from by omega]
        simp [List.append_assoc]
      rcases ctl2 with _ | ⟨ch3, ctl3⟩
      · -- two-character promoted token
        rw [hdata] at hwfc
        simp only [Bool.and_eq_true, beq_iff_eq, bne_iff_ne, ne_eq] at hwfc
        obtain ⟨⟨hch1, _⟩, _⟩ := hwfc
        subst hch1
        rw [henc, hdata, decode_digits_skip e pre.length _ _ (by omega)]
        have hstep : decodeRankAux ((['+', ch2] ++ encodeRowAux row' 0)) (pre.length + e)
              (pre ++ List.replicate (9 - pre.length) (some (" ")))
            = decodeRankAux (encodeRowAux row' 0) (pre.length + e + 1)
              (jsSet (pre ++ List.replicate (9 - pre.length) (some (" ")))
                (pre.length + e) (some (String.mk ['+', ch2]))) := by
          conv_lhs => rw [decodeRankAux.eq_def]
          simp
        rw [hstep]
        have hset : jsSet (pre ++ List.replicate (9 - pre.length) (some (" ")))
              (pre.length + e) (some (String.mk ['+', ch2]))
            = (pre ++ List.replicate e (some (" ")) ++ [some (String.mk ['+', ch2])]) ++
                List.replicate (9 - pre.length - e - 1) (some (" ")) := by
          rw [jsSet, if_pos (by rw [hlen9]; omega)]
          rw [set_append_len, set_replicate_lt _ _ e (9 - pre.length) (by omega)]
          simp [List.append_assoc]
        rw [hset]
        have hlenp : (pre ++ List.replicate e (some (" ")) ++
              [some (String.mk ['+', ch2])]).length = pre.length + e + 1 := by simp; omega
        have h9p : 9 - (pre.length + e + 1) = 9 - pre.length - e - 1 := by omega
        have := ih 0 (pre ++ List.replicate e (some (" ")) ++ [some (String.mk ['+', ch2])])
          (fun d hd => hwf d (List.mem_cons_of_mem _ hd)) (by rw [hlenp]; omega)
        rw [hlenp, h9p] at this
        rw [this]
        have hc : c = String.mk ['+', ch2] := by rw [← string_mk_data c, hdata]
        rw [← hc]
        rw [show 9 - pre.length - e - 1 - 0 - row'.length
              = 9 - pre.length - e - (row'.length + 1) from by omega]
        simp [List.append_assoc]
      · rw [hdata] at hwfc; simp at hwfc

theorem decodeLoop_ranks :
    ∀ (rs : List (List Char)) (pre : List (List ShogiCell)),
      pre.length + rs.length ≤ 9 →
      decodeLoop rs pre.length (pre ++ List.replicate (9 - pre.length) initRow)
        = pre ++ rs.map (fun r => decodeRankAux r 0 initRow) ++
            List.replicate (9 - pre.length - rs.length) initRow := by
  intro rs
  induction rs with
  | nil => intro pre _; simp [decodeLoop]
  | cons r rs' ih =>
    intro pre hle
    simp only [List.length_cons] at hle
    have hrep : (9 - pre.length) = (9 - pre.length - 1) + 1 := by omega
    have hget : (pre ++ List.replicate (9 - pre.length) initRow).get? pre.length
        = some initRow := by
      rw [List.get?_eq_getElem?, List.getElem?_append_right (Nat.le_refl _)]
      simp only [Nat.sub_self]
      rw [hrep]
      simp [List.replicate_succ]
    have hset : (pre ++ List.replicate (9 - pre.length) initRow).set pre.length
          (decodeRankAux r 0 initRow)
        = (pre ++ [decodeRankAux r 0 initRow]) ++
            List.replicate (9 - pre.length - 1) initRow := by
      have h1 := set_append_len pre (List.replicate (9 - pre.length) initRow) 0
        (decodeRankAux r 0 initRow)
      simp only [Nat.add_zero] at h1
      rw [h1, set_replicate_lt _ _ 0 (9 - pre.length) (by omega)]
      simp [List.append_assoc]
    simp only [decodeLoop, hget, Option.getD_some, hset]
    have hlenp : (pre ++ [decodeRankAux r 0 initRow]).length = pre.length + 1 := by simp
    have hthis := ih (pre ++ [decodeRankAux r 0 initRow]) (by rw [hlenp]; omega)
    rw [hlenp, show 9 - (pre.length + 1) = 9 - pre.length - 1 from by omega] at hthis
    rw [hthis]
    rw [show 9 - pre.length - 1 - rs'.length
          = 9 - pre.length - (rs'.length + 1) from by omega]
    simp [List.append_assoc]

theorem encodeRowAux_chars :
    ∀ (row : List String) (e : Nat),
      e + row.length ≤ 9 →
      (∀ c ∈ row, wfCell c = true) →
      ∀ ch ∈ encodeRowAux row e, ch ≠ '/' ∧ ch ≠ ' ' := by
  intro row
  induction row with
  | nil =>
    intro e hle _ ch hch
    simp only [encodeRowAux] at hch
    by_cases he : e > 0
    · rw [if_pos he] at hch
      obtain ⟨d, hd, -, -, hslash, hspace⟩ := repr_digit e he (by omega)
      rw [hd] at hch
      simp at hch
      subst hch
      exact ⟨hslash, hspace⟩
    · rw [if_neg he] at hch
      simp at hch
  | cons c row' ih =>
    intro e hle hwf ch hch
    simp only [List.length_cons] at hle
    by_cases hsp : c = " "
    · subst hsp
      simp only [encodeRowAux, if_pos rfl] at hch
      exact ih (e + 1) (by omega) (fun d hd => hwf d (List.mem_cons_of_mem _ hd)) ch hch
    · have hwfc := hwf c (List.mem_cons_self c row')
      simp only [wfCell, if_neg hsp] at hwfc
      simp only [encodeRowAux, if_neg hsp] at hch
      rcases List.mem_append.mp hch with hch1 | hch2
      · rcases List.mem_append.mp hch1 with hdg | hcd
        · by_cases he : e > 0
          · rw [if_pos he] at hdg
            obtain ⟨d, hd, -, -, hslash, hspace⟩ := repr_digit e he (by omega)
            rw [hd] at hdg
            simp at hdg
            subst hdg
            exact ⟨hslash, hspace⟩
          · rw [if_neg he] at hdg
            simp at hdg
        · rcases hdata : c.data with _ | ⟨c1, ctl⟩
          · rw [hdata] at hcd; simp at hcd
          rcases ctl with _ | ⟨c2, ctl2⟩
          · rw [hdata] at hwfc hcd
            simp only [Bool.and_eq_true, Bool.not_eq_true', bne_iff_ne, ne_eq] at hwfc
            obtain ⟨⟨⟨-, -⟩, hslash⟩, hspace⟩ := hwfc
            simp at hcd
            subst hcd
            exact ⟨hslash, hspace⟩
          rcases ctl2 with _ | ⟨c3, ctl3⟩
          · rw [hdata] at hwfc hcd
            simp only [Bool.and_eq_true, beq_iff_eq, bne_iff_ne, ne_eq] at hwfc
            obtain ⟨⟨hc1, hslash⟩, hspace⟩ := hwfc
            subst hc1
            simp at hcd
            rcases hcd with hcd | hcd
            · subst hcd; exact ⟨by decide, by decide⟩
            · subst hcd; exact ⟨hslash, hspace⟩
          · rw [hdata] at hwfc; simp at hwfc
      · exact ih 0 (by omega) (fun d hd => hwf d (List.mem_cons_of_mem _ hd)) ch hch2

theorem mem_intercalateChar {sep ch : Char} :
    ∀ (rss : List (List Char)), ch ∈ intercalateChar sep rss →
      ch = sep ∨ ∃ r ∈ rss, ch ∈ r := by
  intro rss
  induction rss with
  | nil => intro h; simp [intercalateChar] at h
  | cons r rs ih =>
    intro h
    cases rs with
    | nil =>
      simp only [intercalateChar] at h
      exact Or.inr ⟨r, by simp, h⟩
    | cons r2 rs' =>
      have h1 : intercalateChar sep (r :: r2 :: rs') = r ++ sep :: intercalateChar sep (r2 :: rs') := rfl
      rw [h1] at h
      rcases List.mem_append.mp h with hr | hrest
      · exact Or.inr ⟨r, by simp, hr⟩
      · rcases List.mem_cons.mp hrest with hsep | htl
        · exact Or.inl hsep
        · rcases ih htl with hs | ⟨r', hr', hch⟩
          · exact Or.inl hs
          · exact Or.inr ⟨r', List.mem_cons_of_mem _ hr', hch⟩

/-- Claim C4: for every well-formed 9x9 board whose cells are empty or
single- or two-character (promotion marker plus base symbol) piece tokens,
decoding the encoding yields the board back:
`createBoardFromSfen (_boardToSfen b) = b` (a TS `string` cell re-appears as
the `some`-wrapped cell of the decoder's `ShogiCell` grid). -/
theorem decode_encode_roundTrip (rows : List (List String))
    (hwf : wfStrBoard rows = true) :
    createBoardFromSfen (_boardToSfen rows) = rows.map (fun row => row.map some) := by
  simp only [wfStrBoard, Bool.and_eq_true, beq_iff_eq, List.all_eq_true] at hwf
  obtain ⟨hlen, hall⟩ := hwf
  have hrow : ∀ row ∈ rows, row.length = 9 ∧ ∀ c ∈ row, wfCell c = true := by
    intro row hr
    have := hall row hr
    simp only [wfRow, Bool.and_eq_true, beq_iff_eq, List.all_eq_true] at this
    exact this
  have hchars : ∀ r ∈ rows.map (fun row => encodeRowAux row 0),
      ∀ ch ∈ r, ch ≠ '/' ∧ ch ≠ ' ' := by
    intro r hr ch hch
    rcases List.mem_map.mp hr with ⟨row, hrow', rfl⟩
    exact encodeRowAux_chars row 0 (by have := (hrow row hrow').1; omega)
      (hrow row hrow').2 ch hch
  have hnospace : ' ' ∉ intercalateChar '/' (rows.map (fun row => encodeRowAux row 0)) := by
    intro hmem
    rcases mem_intercalateChar _ hmem with h | ⟨r, hr, hch⟩
    · exact absurd h (by decide)
    · exact (hchars r hr ' ' hch).2 rfl
  have hnoslash : ∀ r ∈ rows.map (fun row => encodeRowAux row 0), '/' ∉ r := by
    intro r hr hmem
    exact (hchars r hr '/' hmem).1 rfl
  have hnonnil : rows.map (fun row => encodeRowAux row 0) ≠ [] := by
    intro h
    have := congrArg List.length h
    simp [hlen] at this
  show createBoardFromSfen
      (String.mk (intercalateChar '/' (rows.map (fun row => encodeRowAux row 0))))
    = rows.map (fun row => row.map some)
  show decodeLoop (splitChar '/' (firstField
      (intercalateChar '/' (rows.map (fun row => encodeRowAux row 0))))) 0 initBoard
    = rows.map (fun row => row.map some)
  rw [firstField_of_no_space _ hnospace,
    splitChar_intercalate '/' _ hnonnil hnoslash]
  have hL2 := decodeLoop_ranks (rows.map (fun row => encodeRowAux row 0)) [] (by simp [hlen])
  simp only [List.length_nil, List.length_map, hlen, List.nil_append, Nat.sub_zero,
    Nat.sub_self, List.replicate_zero, List.append_nil] at hL2
  show decodeLoop (rows.map (fun row => encodeRowAux row 0)) 0
      (List.replicate 9 initRow) = rows.map (fun row => row.map some)
  rw [hL2, List.map_map]
  refine List.map_congr_left ?_
  intro row hr
  have h1 := decode_encode_rank row 0 [] (hrow row hr).2
    (by simp [(hrow row hr).1])
  simp only [List.length_nil, List.nil_append, Nat.sub_zero, List.replicate_zero,
    List.append_nil, Nat.zero_add] at h1
  simp only [Function.comp]
  rw [show initRow = List.replicate 9 (some (" ")) from rfl, h1, (hrow row hr).1]
  simp

/-- Witness for Claim C4 at a concrete board with empties, plain and
promoted tokens. -/
theorem decode_encode_roundTrip_witness :
    createBoardFromSfen (_boardToSfen exBoard) = exBoard.map (fun row => row.map some) :=
  decode_encode_roundTrip exBoard (by decide)

theorem setEmptyRun_id :
    ∀ (n : Nat) (row : List ShogiCell) (file : Nat),
      (∀ k, file ≤ k → k < file + n → row.get? k = some (some (" "))) →
      setEmptyRun row file n = row := by
  intro n
  induction n with
  | zero => intro row file _; rfl
  | succ n ih =>
    intro row file hinv
    have h0 : row.get? file = some (some (" ")) := hinv file (Nat.le_refl _) (by omega)
    show setEmptyRun (row.set file (some (" "))) (file + 1) n = row
    rw [set_eq_of_get? row file _ h0]
    exact ih row (file + 1) (fun k hk1 hk2 => hinv k (by omega) (by omega))

theorem wfRankChars_cons_ne (c : Char) (rest : List Char) (h : ¬c = '+') :
    wfRankChars (c :: rest) = wfRankChars rest := by
  rw [wfRankChars.eq_def]
  simp [h]

theorem wfRankChars_plus (c2 : Char) (rest2 : List Char) :
    wfRankChars ('+' :: c2 :: rest2) = wfRankChars rest2 := by
  rw [wfRankChars.eq_def]
  simp

theorem specScanRank_digit (c : Char) (rest : List Char) (h : c.isDigit = true) :
    specScanRank (c :: rest) = SfenToken.emptyRun (digitVal c) :: specScanRank rest := by
  rw [specScanRank.eq_def]
  simp [h]

theorem specScanRank_plus (c2 : Char) (rest2 : List Char) :
    specScanRank ('+' :: c2 :: rest2)
      = SfenToken.piece (String.mk ['+', c2]) :: specScanRank rest2 := by
  rw [specScanRank.eq_def]
  simp

theorem specScanRank_piece (c : Char) (rest : List Char) (h1 : c.isDigit = false)
    (h2 : ¬c = '+') :
    specScanRank (c :: rest) = SfenToken.piece (String.mk [c]) :: specScanRank rest := by
  rw [specScanRank.eq_def]
  simp [h1, h2]

theorem decode_scan_agree :
    ∀ (r : List Char) (file : Nat) (row : List ShogiCell),
      wfRankChars r = true →
      row.length = 9 →
      file + rankAdvance r ≤ 9 →
      (∀ k, file ≤ k → k < 9 → row.get? k = some (some (" "))) →
      decodeRankAux r file row = specPlaceTokens (specScanRank r) file row := by
  intro r file row
  induction r, file, row using decodeRankAux.induct with
  | case1 file row =>
    intro _ _ _ _
    simp [decodeRankAux, specScanRank, specPlaceTokens]
  | case2 c rest file row hdig ih =>
    intro hwf hlen hbound hinv
    have hplus : ¬c = '+' := by
      intro h; rw [h] at hdig; exact absurd hdig (by decide)
    rw [wfRankChars_cons_ne c rest hplus] at hwf
    have hadv : rankAdvance (c :: rest) = digitVal c + rankAdvance rest := by
      simp [rankAdvance, specScanRank_digit c rest hdig, tokenAdvance]
    rw [hadv] at hbound
    have hser : setEmptyRun row file (digitVal c) = row :=
      setEmptyRun_id (digitVal c) row file
        (fun k hk1 hk2 => hinv k hk1 (by omega))
    have hlhs : decodeRankAux (c :: rest) file row
        = decodeRankAux rest (file + digitVal c) row := by
      conv_lhs => rw [decodeRankAux.eq_def]
      simp [hdig]
    have hrhs : specPlaceTokens (specScanRank (c :: rest)) file row
        = specPlaceTokens (specScanRank rest) (file + digitVal c) row := by
      rw [specScanRank_digit c rest hdig]
      simp [specPlaceTokens, hser]
    rw [hlhs, hrhs]
    exact ih hwf hlen (by omega) (fun k hk1 hk2 => hinv k (by omega) hk2)
  | case3 file row c2 rest2 hdig ih =>
    intro hwf hlen hbound hinv
    rw [wfRankChars_plus c2 rest2] at hwf
    have hadv : rankAdvance ('+' :: c2 :: rest2) = 1 + rankAdvance rest2 := by
      simp [rankAdvance, specScanRank_plus c2 rest2, tokenAdvance]
    rw [hadv] at hbound
    have hjs : jsSet row file (some (String.mk ['+', c2]))
        = row.set file (some (String.mk ['+', c2])) := by
      rw [jsSet, if_pos (by rw [hlen]; omega)]
    have hlhs : decodeRankAux ('+' :: c2 :: rest2) file row
        = decodeRankAux rest2 (file + 1) (jsSet row file (some (String.mk ['+', c2]))) := by
      have hpd : ('+').isDigit = false := by decide
      conv_lhs => rw [decodeRankAux.eq_def]
      simp [hpd]
    have hrhs : specPlaceTokens (specScanRank ('+' :: c2 :: rest2)) file row
        = specPlaceTokens (specScanRank rest2) (file + 1)
            (row.set file (some (String.mk ['+', c2]))) := by
      rw [specScanRank_plus c2 rest2]
      simp [specPlaceTokens]
    rw [hlhs, hjs, hrhs]
    rw [hjs] at ih
    exact ih hwf (by simp [hlen]) (by omega)
      (fun k hk1 hk2 => by
        rw [List.get?_set_ne _ _ (by omega)]
        exact hinv k (by omega) hk2)
  | case4 file row hdig ih =>
    intro hwf _ _ _
    rw [wfRankChars.eq_def] at hwf
    simp at hwf
  | case5 c rest file row hdig hplus ih =>
    intro hwf hlen hbound hinv
    have hdig' : c.isDigit = false := by
      cases h : c.isDigit
      · rfl
      · exact absurd h hdig
    rw [wfRankChars_cons_ne c rest hplus] at hwf
    have hadv : rankAdvance (c :: rest) = 1 + rankAdvance rest := by
      simp [rankAdvance, specScanRank_piece c rest hdig' hplus, tokenAdvance]
    rw [hadv] at hbound
    have hjs : jsSet row file (some (String.mk [c]))
        = row.set file (some (String.mk [c])) := by
      rw [jsSet, if_pos (by rw [hlen]; omega)]
    have hlhs : decodeRankAux (c :: rest) file row
        = decodeRankAux rest (file + 1) (jsSet row file (some (String.mk [c]))) := by
      conv_lhs => rw [decodeRankAux.eq_def]
      simp [hdig', hplus]
    have hrhs : specPlaceTokens (specScanRank (c :: rest)) file row
        = specPlaceTokens (specScanRank rest) (file + 1)
            (row.set file (some (String.mk [c]))) := by
      rw [specScanRank_piece c rest hdig' hplus]
      simp [specPlaceTokens]
    rw [hlhs, hjs, hrhs]
    rw [hjs] at ih
    exact ih hwf (by simp [hlen]) (by omega)
      (fun k hk1 hk2 => by
        rw [List.get?_set_ne _ _ (by omega)]
        exact hinv k (by omega) hk2)

theorem createBoardFromSfen_firstField (s : String) :
    createBoardFromSfen s = createBoardFromSfen (String.mk (firstField s.data)) := by
  show decodeLoop (splitChar '/' (firstField s.data)) 0 initBoard
      = decodeLoop (splitChar '/' (firstField (firstField s.data))) 0 initBoard
  rw [firstField_of_no_space (firstField s.data) (not_space_mem_firstField s.data)]

/-- Claim C8: the decoder reads each rank's characters left to right — a
decimal digit N produces N consecutive empty cells, advancing the file
cursor by N; a promotion marker immediately followed by a base symbol is
consumed as one two-character token occupying one cell; any other character
is a one-character token occupying one cell (agreement of the source's
`decodeRankAux` with the scanner `specScanRank`/`specPlaceTokens` written
from the spec's words) — and only the first space-delimited field of the
input is consumed, the remainder being ignored. -/
theorem decoder_tokens_and_first_field (r : List Char)
    (h1 : wfRankChars r = true) (h2 : rankAdvance r ≤ 9) :
    decodeRankAux r 0 initRow = specPlaceTokens (specScanRank r) 0 initRow
    ∧ ∀ s : String,
        createBoardFromSfen s = createBoardFromSfen (String.mk (firstField s.data)) := by
  constructor
  · refine decode_scan_agree r 0 initRow h1 rfl (by omega) ?_
    intro k _ hk
    show (List.replicate 9 (some (" "))).get? k = some (some (" "))
    rw [List.get?_eq_getElem?, List.getElem?_replicate, if_pos hk]
  · intro s
    exact createBoardFromSfen_firstField s

/-- Witness for Claim C8 at the concrete rank string `"2p+p3r"`. -/
theorem decoder_tokens_and_first_field_witness :
    decodeRankAux exRank 0 initRow = specPlaceTokens (specScanRank exRank) 0 initRow :=
  (decoder_tokens_and_first_field exRank (by decide) (by decide)).1

theorem all_set {α : Type} (p : α → Bool) :
    ∀ (l : List α) (i : Nat) (v : α),
      l.all p = true → p v = true → (l.set i v).all p = true := by
  intro l
  induction l with
  | nil => intro i v h _; simpa using h
  | cons x xs ih =>
    intro i v h hv
    simp only [List.all_cons, Bool.and_eq_true] at h
    cases i with
    | zero => simp [List.set, h.2, hv]
    | succ i => simp [List.set, h.1, ih i v h.2 hv]

theorem allowedCell_two (c2 : Char) :
    allowedCell (some (String.mk ['+', c2])) = true := by
  have hne : ¬(String.mk ['+', c2] = " ") := by
    intro h
    have := congrArg String.data h
    simp at this
  simp [allowedCell, hne]

theorem allowedCell_one (c : Char) :
    allowedCell (some (String.mk [c])) = true := by
  by_cases h : String.mk [c] = " "
  · simp [allowedCell, h]
  · simp [allowedCell, h]

theorem decodeRank_rowOk :
    ∀ (r : List Char) (file : Nat) (row : List ShogiCell),
      wfRankChars r = true →
      row.length = 9 →
      file + rankAdvance r ≤ 9 →
      row.all allowedCell = true →
      (decodeRankAux r file row).all allowedCell = true
        ∧ (decodeRankAux r file row).length = 9 := by
  intro r file row
  induction r, file, row using decodeRankAux.induct with
  | case1 file row =>
    intro _ hlen _ hall
    exact ⟨hall, hlen⟩
  | case2 c rest file row hdig ih =>
    intro hwf hlen hbound hall
    have hplus : ¬c = '+' := by
      intro h; rw [h] at hdig; exact absurd hdig (by decide)
    rw [wfRankChars_cons_ne c rest hplus] at hwf
    have hadv : rankAdvance (c :: rest) = digitVal c + rankAdvance rest := by
      simp [rankAdvance, specScanRank_digit c rest hdig, tokenAdvance]
    rw [hadv] at hbound
    have hlhs : decodeRankAux (c :: rest) file row
        = decodeRankAux rest (file + digitVal c) row := by
      conv_lhs => rw [decodeRankAux.eq_def]
      simp [hdig]
    rw [hlhs]
    exact ih hwf hlen (by omega) hall
  | case3 file row c2 rest2 hdig ih =>
    intro hwf hlen hbound hinv
    rw [wfRankChars_plus c2 rest2] at hwf
    have hadv : rankAdvance ('+' :: c2 :: rest2) = 1 + rankAdvance rest2 := by
      simp [rankAdvance, specScanRank_plus c2 rest2, tokenAdvance]
    rw [hadv] at hbound
    have hjs : jsSet row file (some (String.mk ['+', c2]))
        = row.set file (some (String.mk ['+', c2])) := by
      rw [jsSet, if_pos (by rw [hlen]; omega)]
    have hlhs : decodeRankAux ('+' :: c2 :: rest2) file row
        = decodeRankAux rest2 (file + 1) (jsSet row file (some (String.mk ['+', c2]))) := by
      have hpd : ('+').isDigit = false := by decide
      conv_lhs => rw [decodeRankAux.eq_def]
      simp [hpd]
    rw [hlhs, hjs]
    rw [hjs] at ih
    exact ih hwf (by simp [hlen]) (by omega)
      (all_set allowedCell row file _ hinv (allowedCell_two c2))
  | case4 file row hdig ih =>
    intro hwf _ _ _
    rw [wfRankChars.eq_def] at hwf
    simp at hwf
  | case5 c rest file row hdig hplus ih =>
    intro hwf hlen hbound hinv
    have hdig' : c.isDigit = false := by
      cases h : c.isDigit
      · rfl
      · exact absurd h hdig
    rw [wfRankChars_cons_ne c rest hplus] at hwf
    have hadv : rankAdvance (c :: rest) = 1 + rankAdvance rest := by
      simp [rankAdvance, specScanRank_piece c rest hdig' hplus, tokenAdvance]
    rw [hadv] at hbound
    have hjs : jsSet row file (some (String.mk [c]))
        = row.set file (some (String.mk [c])) := by
      rw [jsSet, if_pos (by rw [hlen]; omega)]
    have hlhs : decodeRankAux (c :: rest) file row
        = decodeRankAux rest (file + 1) (jsSet row file (some (String.mk [c]))) := by
      conv_lhs => rw [decodeRankAux.eq_def]
      simp [hdig', hplus]
    rw [hlhs, hjs]
    rw [hjs] at ih
    exact ih hwf (by simp [hlen]) (by omega)
      (all_set allowedCell row file _ hinv (allowedCell_one c))

theorem decodeLoop_boardOk :
    ∀ (rs : List (List Char)) (i : Nat) (b : Board),
      (∀ r ∈ rs, wfRankChars r = true ∧ rankAdvance r ≤ 9) →
      boardOk b = true → boardOk (decodeLoop rs i b) = true := by
  intro rs
  induction rs with
  | nil => intro i b _ hb; exact hb
  | cons r rs' ih =>
    intro i b hwf hb
    have hr := hwf r (List.mem_cons_self r rs')
    have hrow : rowOk ((b.get? i).getD initRow) = true := by
      cases h : b.get? i with
      | none => decide
      | some row =>
        have hmem := List.get?_mem h
        simp only [boardOk, Bool.and_eq_true, List.all_eq_true] at hb
        exact hb.2 row hmem
    simp only [rowOk, Bool.and_eq_true, beq_iff_eq, List.all_eq_true] at hrow
    have hnew := decodeRank_rowOk r 0 ((b.get? i).getD initRow) hr.1 hrow.1
      (by omega) (List.all_eq_true.mpr hrow.2)
    show boardOk (decodeLoop rs' (i + 1)
      (b.set i (decodeRankAux r 0 ((b.get? i).getD initRow)))) = true
    refine ih (i + 1) _ (fun x hx => hwf x (List.mem_cons_of_mem r hx)) ?_
    simp only [boardOk, Bool.and_eq_true, beq_iff_eq, List.all_eq_true] at hb ⊢
    constructor
    · simp [hb.1]
    · intro row hrow'
      rcases List.mem_or_eq_of_mem_set hrow' with hmem | heq
      · exact hb.2 row hmem
      · subst heq
        simp only [rowOk, Bool.and_eq_true, beq_iff_eq, List.all_eq_true]
        exact ⟨hnew.2, List.all_eq_true.mp hnew.1⟩

theorem createBoardFromSfen_ok (s : String) (h : wfSfen s = true) :
    boardOk (createBoardFromSfen s) = true := by
  simp only [wfSfen, Bool.and_eq_true, List.all_eq_true, decide_eq_true_eq] at h
  refine decodeLoop_boardOk _ 0 initBoard ?_ (by decide)
  intro r hr
  have := h.2 r hr
  simp only [Bool.and_eq_true, decide_eq_true_eq] at this
  exact this

theorem isOurTurn_ignores_board (st : ControllerState) (b : Board) :
    isOurTurn { st with board := b } = isOurTurn st := rfl

theorem updateFrom_fst_after (c : ControllerState) (m : GameAreaModel) :
    isOurTurn (_updateFrom c m).1 = isOurTurn (baseUpdate c m) := by
  obtain ⟨mg, mocc⟩ := m
  cases mg with
  | none =>
    simp only [_updateFrom]
    split <;> rfl
  | some g =>
    simp only [_updateFrom]
    split <;> split <;> rfl

/-- Claim C7: a snapshot whose game reference is absent leaves the cached
board untouched and emits no board event at all. -/
theorem update_no_game_preserves_board (c : ControllerState) (m : GameAreaModel)
    (h : m.game = none) :
    (_updateFrom c m).1.board = c.board
    ∧ (_updateFrom c m).2.all (fun e => !isBoardEmit e) = true := by
  obtain ⟨mg, mocc⟩ := m
  cases mg with
  | some g => simp at h
  | none =>
    simp only [_updateFrom]
    refine ⟨?_, ?_⟩ <;> (split <;> simp [isBoardEmit, baseUpdate])

/-- Witness for Claim C7: the fresh controller receiving a game-less
snapshot keeps its cache and emits no board event. -/
theorem update_no_game_preserves_board_witness :
    (_updateFrom cInit modelNoGame).1.board = cInit.board
    ∧ (_updateFrom cInit modelNoGame).2.all (fun e => !isBoardEmit e) = true :=
  update_no_game_preserves_board cInit modelNoGame rfl

theorem isOurTurn_board_irrel (mo : GameAreaModel) (b b' : Board) (iid : Option String)
    (occ : List Player) (our : String) :
    isOurTurn { model := mo, board := b, instanceID := iid, occupants := occ, ourId := our }
      = isOurTurn { model := mo, board := b', instanceID := iid, occupants := occ, ourId := our } :=
  rfl

theorem updateFrom_events (c : ControllerState) (m : GameAreaModel) :
    (_updateFrom c m).2
      = (match m.game with
         | some g =>
           if createBoardFromSfen g.state.sfen ≠ c.board
           then [Emitted.board ("boxardChanged") (createBoardFromSfen g.state.sfen)]
           else []
         | none => []) ++
        (if isOurTurn c ≠ isOurTurn (baseUpdate c m)
         then [Emitted.turn ("turnChanged") (isOurTurn (baseUpdate c m))] else []) := by
  obtain ⟨mg, mocc⟩ := m
  cases mg with
  | none =>
    simp only [_updateFrom, baseUpdate]
    split <;> simp
  | some g =>
    simp only [_updateFrom, baseUpdate]
    split
    · rw [isOurTurn_board_irrel { game := some g, occupants := mocc }
          (createBoardFromSfen g.state.sfen) c.board (some g.id) mocc c.ourId]
      split <;> simp
    · split <;> simp

theorem updateFrom_board (c : ControllerState) (m : GameAreaModel) :
    (_updateFrom c m).1.board
      = match m.game with
        | some g =>
          if createBoardFromSfen g.state.sfen ≠ c.board
          then createBoardFromSfen g.state.sfen else c.board
        | none => c.board := by
  obtain ⟨mg, mocc⟩ := m
  cases mg with
  | none =>
    simp only [_updateFrom, baseUpdate]
    split <;> simp
  | some g =>
    simp only [_updateFrom, baseUpdate]
    split
    · split <;> simp
    · split <;> simp

/-- Claim C3: `_updateFrom` emits a `turnChanged` notification carrying the
new value of `isOurTurn` exactly when that boolean differs from its value
before the update — independently of whether any board event fired. -/
theorem turnChanged_iff_isOurTurn_flip (c : ControllerState) (m : GameAreaModel) (v : Bool) :
    Emitted.turn ("turnChanged") v ∈ (_updateFrom c m).2
      ↔ (v = isOurTurn (_updateFrom c m).1
          ∧ isOurTurn (_updateFrom c m).1 ≠ isOurTurn c) := by
  rw [updateFrom_events, updateFrom_fst_after]
  have hbp : Emitted.turn ("turnChanged") v ∉
      (match m.game with
       | some g =>
         if createBoardFromSfen g.state.sfen ≠ c.board
         then [Emitted.board ("boxardChanged") (createBoardFromSfen g.state.sfen)]
         else []
       | none => []) := by
    rcases m with ⟨mg, mocc⟩
    cases mg with
    | none => simp
    | some g => split <;> simp
  simp only [List.mem_append]
  rw [or_iff_right hbp]
  split
  · next h =>
    simp [Ne.symm h]
  · next h =>
    rw [not_ne_iff] at h
    simp [h]

/-- Witness for Claim C3: for participant `p2`, applying the in-progress
snapshot flips `isOurTurn` from `false` to `true` and the `turnChanged`
event carrying `true` is emitted. -/
theorem turnChanged_iff_isOurTurn_flip_witness :
    Emitted.turn ("turnChanged") true ∈ (_updateFrom cInit2 modelInProgress).2 :=
  (turnChanged_iff_isOurTurn_flip cInit2 modelInProgress true).mpr (by decide)

/-- Claim C1 (exhibit of the code bug): at the failing input — the fresh
controller receiving an in-progress snapshot whose decoded board differs
from the cache — `_updateFrom` does replace the cache, but the single
emitted board notification carries the misspelled event name
`'boxardChanged'`; the name is not `'boardChanged'`, the one declared by
`ShogiEvents` and promised by the method's own doc comment, so
`boardChanged` subscribers are never notified. -/
theorem update_emits_misspelled_board_event :
    (_updateFrom cInit modelInProgress).2
        = [Emitted.board ("boxardChanged") (createBoardFromSfen emptySfen)]
    ∧ (_updateFrom cInit modelInProgress).1.board = createBoardFromSfen emptySfen
    ∧ decide (("boxardChanged" : String) = ("boardChanged" : String)) = false
    ∧ decide (createBoardFromSfen emptySfen = cInit.board) = false := by
  refine ⟨by decide, by decide, by decide, by decide⟩

/-- Claim C2: with both role-holders resolvable and phase IN_PROGRESS,
`whoseTurn` is the second role-holder (black) on even move counts and the
first role-holder (white) on odd ones; it is `undefined` whenever a role is
unresolved or the phase is not IN_PROGRESS, regardless of the counter. -/
theorem whoseTurn_parity (c : ControllerState) :
    (∀ pw pb, white c = some pw → black c = some pb →
        status c = GameStatus.IN_PROGRESS →
        whoseTurn c = some (if moveCount c % 2 = 0 then pb else pw))
    ∧ ((white c = none ∨ black c = none ∨ status c ≠ GameStatus.IN_PROGRESS) →
        whoseTurn c = none) := by
  constructor
  · intro pw pb hw hb hs
    have hgs : gameStatus c = some GameStatus.IN_PROGRESS := by
      cases hg : c.model.game with
      | none => simp [status, hg] at hs
      | some g =>
        simp [status, hg] at hs
        simp [gameStatus, hg, hs]
    unfold whoseTurn
    rw [hw, hb, hgs]
    simp only [ne_eq, not_true_eq_false, or_false, reduceCtorEq, false_or, if_false]
    split <;> rfl
  · intro h
    unfold whoseTurn
    rcases h with h | h | h
    · rw [if_pos (Or.inl h)]
    · rw [if_pos (Or.inr (Or.inl h))]
    · refine if_pos (Or.inr (Or.inr ?_))
      intro heq
      apply h
      cases hg : c.model.game with
      | none => rw [gameStatus, hg] at heq; exact Option.noConfusion heq
      | some g =>
        rw [gameStatus, hg] at heq
        simp at heq
        simp [status, hg, heq]

/-- Witness for Claim C2: in the synchronized in-progress state with zero
moves it is black's (`p2`'s) turn. -/
theorem whoseTurn_parity_witness :
    whoseTurn cSync = some (if moveCount cSync % 2 = 0 then ⟨("p2")⟩ else ⟨("p1")⟩) :=
  (whoseTurn_parity cSync).1 ⟨("p1")⟩ ⟨("p2")⟩ (by decide) (by decide) rfl

/-- Claim C5: `startGame` fails immediately with the no-game-startable
error — producing no outbound command — whenever there is no (truthy)
instance identifier or the phase is not WAITING_TO_START; otherwise it
sends a `StartGame` command tagged with the instance identifier. -/
theorem startGame_guard (c : ControllerState) :
    ((c.instanceID = none ∨ c.instanceID = some ("") ∨
        gameStatus c ≠ some GameStatus.WAITING_TO_START) →
      startGame c = Except.error NO_GAME_STARTABLE)
    ∧ (∀ iid, c.instanceID = some iid → iid ≠ "" →
        gameStatus c = some GameStatus.WAITING_TO_START →
        startGame c = Except.ok (OutCommand.StartGame iid)) := by
  constructor
  · intro h
    cases hi : c.instanceID with
    | none => simp [startGame, hi]
    | some iid =>
      simp only [startGame, hi]
      rw [if_neg]
      rintro ⟨h1, h2⟩
      rcases h with h | h | h
      · rw [hi] at h; exact Option.noConfusion h
      · rw [hi] at h; injection h with h; exact h1 h
      · exact h h2
  · intro iid hi hne hs
    simp [startGame, hi, hne, hs]

/-- Witness for Claim C5: the fresh controller has no instance id, so
`startGame` rejects with the no-game-startable error. -/
theorem startGame_guard_witness :
    startGame cInit = Except.error NO_GAME_STARTABLE :=
  (startGame_guard cInit).1 (Or.inl rfl)

/-- Claim C6: `makeMove` fails immediately with the no-game-in-progress
error — producing no outbound command — whenever there is no (truthy)
instance identifier or the phase is not IN_PROGRESS; otherwise it performs
no validation of the coordinates and sends a `GameMove` whose move pairs
exactly `{row: fromRow, col: fromCol}` with `{row: toRow, col: toCol}`,
tagged with the instance identifier. -/
theorem makeMove_guard (c : ControllerState) (fRow fCol tRow tCol : Nat) :
    ((c.instanceID = none ∨ c.instanceID = some ("") ∨
        gameStatus c ≠ some GameStatus.IN_PROGRESS) →
      makeMove c fRow fCol tRow tCol = Except.error NO_GAME_IN_PROGRESS_ERROR)
    ∧ (∀ iid, c.instanceID = some iid → iid ≠ "" →
        gameStatus c = some GameStatus.IN_PROGRESS →
        makeMove c fRow fCol tRow tCol
          = Except.ok (OutCommand.GameMove iid ⟨⟨fRow, fCol⟩, ⟨tRow, tCol⟩⟩)) := by
  constructor
  · intro h
    cases hi : c.instanceID with
    | none => simp [makeMove, hi]
    | some iid =>
      simp only [makeMove, hi]
      rw [if_neg]
      rintro ⟨h1, h2⟩
      rcases h with h | h | h
      · rw [hi] at h; exact Option.noConfusion h
      · rw [hi] at h; injection h with h; exact h1 h
      · exact h h2
  · intro iid hi hne hs
    simp [makeMove, hi, hne, hs]

/-- Witness for Claim C6: in the synchronized in-progress state the call
`makeMove 0 0 1 1` sends the corresponding `GameMove`. -/
theorem makeMove_guard_witness :
    makeMove cSync 0 0 1 1
      = Except.ok (OutCommand.GameMove ("g1") ⟨⟨0, 0⟩, ⟨1, 1⟩⟩) :=
  (makeMove_guard cSync 0 0 1 1).2 ("g1") rfl (by decide) rfl

/-- Claim C9 (amended): when the local participant's id equals neither
resolved role-holder, reading `gamePiece` throws the player-not-in-game
error; when it equals the resolved white role-holder it returns `'white'`;
when it equals the resolved black role-holder but not the resolved white
one, it returns `'black'`. -/
theorem gamePiece_role_cases (c : ControllerState) :
    (((white c).map Player.id = some c.ourId) →
        gamePiece c = Except.ok ("white"))
    ∧ (((white c).map Player.id ≠ some c.ourId) →
        ((black c).map Player.id = some c.ourId) →
        gamePiece c = Except.ok ("black"))
    ∧ (((white c).map Player.id ≠ some c.ourId) →
        ((black c).map Player.id ≠ some c.ourId) →
        gamePiece c = Except.error PLAYER_NOT_IN_GAME_ERROR) := by
  refine ⟨?_, ?_, ?_⟩
  · intro h
    simp [gamePiece, h]
  · intro h1 h2
    simp [gamePiece, h1, h2]
  · intro h1 h2
    simp [gamePiece, h1, h2]

/-- Witness for Claim C9: in the synchronized state the local participant
`p1` is the resolved white role-holder and `gamePiece` returns `'white'`. -/
theorem gamePiece_role_cases_witness :
    gamePiece cSync = Except.ok ("white") :=
  (gamePiece_role_cases cSync).1 (by decide)

/-- Counterexample for Claim C9 as stated: in a state where both role
fields name the local participant, the participant's id equals the
resolved black role-holder's id, yet `gamePiece` returns `'white'`, not
`'black'`. -/
theorem gamePiece_both_roles_counterexample :
    (black cBothRoles).map Player.id = some cBothRoles.ourId
    ∧ gamePiece cBothRoles = Except.ok ("white")
    ∧ decide (gamePiece cBothRoles = Except.ok ("black")) = false := by
  refine ⟨by decide, by decide, by decide⟩

/-- Claim C10 (amended): the initial cached board, and the board after any
update whose snapshot (when it carries a game) has a well-formed board
string, consists of 9 ranks of 9 cells, each cell a string — never
`undefined` — of one of the allowed shapes: `' '`, a one-character token,
or `'+'` plus one character. -/
theorem board_cells_shape_invariant :
    boardOk (createBoardFromSfen initialSfen) = true
    ∧ (∀ (c : ControllerState) (m : GameAreaModel),
         boardOk c.board = true → modelSfenOk m = true →
         boardOk (_updateFrom c m).1.board = true)
    ∧ (∀ b : Board, boardOk b = true → boardAllowed b = true) := by
  refine ⟨by decide, ?_, ?_⟩
  · intro c m hc hm
    rw [updateFrom_board]
    rcases m with ⟨mg, mocc⟩
    cases mg with
    | none => exact hc
    | some g =>
      simp only [modelSfenOk] at hm
      show boardOk (if createBoardFromSfen g.state.sfen ≠ c.board
        then createBoardFromSfen g.state.sfen else c.board) = true
      split
      · exact createBoardFromSfen_ok g.state.sfen hm
      · exact hc
  · intro b hb
    simp only [boardOk, boardAllowed, Bool.and_eq_true, List.all_eq_true] at hb ⊢
    intro row hrow
    have h := hb.2 row hrow
    simp only [rowOk, Bool.and_eq_true, List.all_eq_true] at h
    exact h.2

/-- Witness for Claim C10: applying the in-progress snapshot (empty board,
well-formed) to the fresh controller yields a board of allowed cells. -/
theorem board_cells_shape_invariant_witness :
    boardOk (_updateFrom cInit modelInProgress).1.board = true :=
  board_cells_shape_invariant.2.1 cInit modelInProgress (by decide) (by decide)

/-- Counterexample for Claim C10 as stated: an update whose board string is
a lone promotion marker (JS `char + rank[j+1]` concatenating `undefined`)
stores the ten-character cell `"+undefined"`, which is neither `' '` nor a
one-character token nor `'+'` plus one character. -/
theorem board_cell_plus_undefined_counterexample :
    ((_updateFrom cInit modelPlus).1.board.headD []).headD none = some ("+undefined")
    ∧ allowedCell (some ("+undefined")) = false := by
  refine ⟨by decide, by decide⟩
